import Mathlib

set_option linter.unusedVariables false
set_option maxRecDepth 100000

/-! Shallow embedding of the MonotonicSplineTransformer estimator from
sklego/preprocessing/monotonicspline.py, together with models of its external
collaborators (array validation and the B-spline basis transformer, per the
contract stated in the specification), and proofs of the specified
properties. Real numbers are modelled by rationals. -/

/-- Error taxonomy of the estimator contract: validation errors from
check_array, the not-fitted error from check_is_fitted, and the
shape-mismatch error raised by the basis evaluator collaborator. -/
inductive Err where
  | validationError
  | notFittedError
  | shapeMismatch
deriving DecidableEq

/-- Knot placement strategies accepted by the knots parameter. -/
inductive KnotStrategy where
  | uniform
  | quantile
deriving DecidableEq

/-- A scalar cell of a floating-point input array: a finite value, one of the
two infinities, or NaN. Finite values are modelled by rationals. -/
inductive Val where
  | num (q : ℚ)
  | posInf
  | negInf
  | nan
deriving DecidableEq

/-- Whether a scalar is finite. -/
def Val.isFinite : Val → Bool
  | .num _ => true
  | _ => false

/-- A finite numeric data matrix, as a list of rows. -/
abbrev Mat := List (List ℚ)

instance instDecEqExcept {ε α : Type} [DecidableEq ε] [DecidableEq α] :
    DecidableEq (Except ε α) := fun x y =>
  match x, y with
  | .ok a, .ok b => if h : a = b then .isTrue (by simp [h]) else .isFalse (by simp [h])
  | .error a, .error b => if h : a = b then .isTrue (by simp [h]) else .isFalse (by simp [h])
  | .ok _, .error _ => .isFalse (by simp)
  | .error _, .ok _ => .isFalse (by simp)

/-- Model of sklearn.utils.check_array as called by this estimator: the input
must be a non-empty rectangular 2-d array with at least one column, and, only
when force_all_finite is set, all entries must be finite. Both call sites of
the source pass force_all_finite=False. The copy flag of the source fit call
has no observable effect on the returned value. -/
def check_array {α : Type} (force_all_finite : Bool) (isFin : α → Bool)
    (X : List (List α)) : Except Err (List (List α)) :=
  if X.length = 0 then .error .validationError
  else if (X.headD []).length = 0 then .error .validationError
  else if X.any (fun r => r.length ≠ (X.headD []).length) then .error .validationError
  else if force_all_finite && X.any (fun r => r.any (fun v => !(isFin v))) then
    .error .validationError
  else .ok X

/-- np.min of a column (head-seeded fold). -/
def amin (xs : List ℚ) : ℚ := xs.foldl min (xs.headD 0)

/-- np.max of a column (head-seeded fold). -/
def amax (xs : List ℚ) : ℚ := xs.foldl max (xs.headD 0)

/-- np.linspace from lo to hi with n points. -/
def linspace (lo hi : ℚ) (n : ℕ) : List ℚ :=
  (List.range n).map fun (m : ℕ) => lo + (m : ℚ) * ((hi - lo) / ((n - 1 : ℕ) : ℚ))

/-- Linear interpolation into a sorted list at fractional position p, as in
np.percentile with the default linear method. -/
def interpAt (s : List ℚ) (p : ℚ) : ℚ :=
  s.getD ⌊p⌋₊ 0 +
    (p - ((⌊p⌋₊ : ℕ) : ℚ)) * (s.getD (min (⌊p⌋₊ + 1) (s.length - 1)) 0 - s.getD ⌊p⌋₊ 0)

/-- np.percentile of the data xs at fraction q of the range from 0 to 1. -/
def percentile (xs : List ℚ) (q : ℚ) : ℚ :=
  let s := List.insertionSort (· ≤ ·) xs
  interpAt s (q * ((s.length - 1 : ℕ) : ℚ))

/-- Modelled from the spec: base knot positions for one feature column, as
computed by the basis collaborator. The uniform strategy places n_knots
evenly spaced knots between the column min and max; the quantile strategy
places them at evenly spaced percentiles of the column. -/
def baseKnots (strategy : KnotStrategy) (n_knots : ℕ) (col : List ℚ) : List ℚ :=
  match strategy with
  | .uniform => linspace (amin col) (amax col) n_knots
  | .quantile =>
    (List.range n_knots).map fun (m : ℕ) =>
      percentile col ((m : ℚ) / ((n_knots - 1 : ℕ) : ℚ))

/-- Extension of the base knots by degree extra knots on each side, spaced by
the boundary spacing, as the basis collaborator does before building the
B-spline basis. -/
def extendKnots (degree : ℕ) (base : List ℚ) : List ℚ :=
  let b0 := base.headD 0
  let bL := base.getLastD 0
  let d_min := base.getD 1 0 - b0
  let d_max := bL - base.getD (base.length - 2) 0
  ((List.range degree).map fun (m : ℕ) => b0 - ((degree - m : ℕ) : ℚ) * d_min)
    ++ base ++
    ((List.range degree).map fun (m : ℕ) => bL + ((m + 1 : ℕ) : ℚ) * d_max)

/-- Knot lookup with the index clamped into the list, so that the knot
sequence is a total function of the index that is monotone whenever the
stored list is sorted. -/
def knotAt (kl : List ℚ) (j : ℕ) : ℚ := kl.getD (min j (kl.length - 1)) 0

/-- Cox-de Boor recursion for the B-spline basis function of the given degree
and index over the knot sequence t. -/
def bspl (t : ℕ → ℚ) : ℕ → ℕ → ℚ → ℚ
  | 0, i, x => if t i ≤ x ∧ x < t (i + 1) then 1 else 0
  | k + 1, i, x =>
    (x - t i) / (t (i + k + 1) - t i) * bspl t k i x +
      (t (i + k + 2) - x) / (t (i + k + 2) - t (i + 1)) * bspl t k (i + 1) x

/-- Modelled from the spec: the fitted state of the external spline-basis
transformer collaborator. It stores the degree, the number of base knots, the
number of input features seen at fit time, and per input feature the extended
knot vector together with the boundary values used for constant
extrapolation. -/
structure SplineTransformer where
  degree : ℕ
  n_knots : ℕ
  n_features_in_ : ℕ
  featKnots : List (List ℚ)
  featMin : List ℚ
  featMax : List ℚ
deriving DecidableEq

/-- Number of B-spline basis functions per input feature: the standard count
n_knots + degree - 1, bias splines included. -/
def SplineTransformer.nSplines (fs : SplineTransformer) : ℕ :=
  fs.n_knots + fs.degree - 1

/-- Modelled from the spec: fitting the collaborator computes, per feature
column, the base knots from the data and extends them by degree knots on each
side. -/
def SplineTransformer.fitState (n_knots degree : ℕ) (strategy : KnotStrategy)
    (X : Mat) : SplineTransformer :=
  let nf := (X.headD []).length
  let cols := (List.range nf).map fun j => X.map fun r => r.getD j 0
  { degree := degree
    n_knots := n_knots
    n_features_in_ := nf
    featKnots := cols.map fun col => extendKnots degree (baseKnots strategy n_knots col)
    featMin := cols.map fun col => (baseKnots strategy n_knots col).headD 0
    featMax := cols.map fun col => (baseKnots strategy n_knots col).getLastD 0 }

/-- Modelled from the spec: parameter validation of the collaborator requires
at least two knots; otherwise fitting stores the computed state. -/
def SplineTransformer.fit (n_knots degree : ℕ) (strategy : KnotStrategy)
    (X : Mat) : Except Err SplineTransformer :=
  if n_knots < 2 then .error .validationError
  else .ok (SplineTransformer.fitState n_knots degree strategy X)

/-- The basis values of one feature at one sample value, with the sample
clamped to the fit-time boundary knots (constant extrapolation). -/
def SplineTransformer.featureBasis (fs : SplineTransformer) (j : ℕ) (x : ℚ) : List ℚ :=
  let kl := fs.featKnots.getD j []
  let lo := fs.featMin.getD j 0
  let hi := fs.featMax.getD j 0
  let xc := if x < lo then lo else if hi < x then hi else x
  (List.range fs.nSplines).map fun i => bspl (knotAt kl) fs.degree i xc

/-- The raw basis expansion of one sample row: the bases of all input
features, grouped feature by feature as in the collaborator output layout. -/
def SplineTransformer.transformRow (fs : SplineTransformer) (r : List ℚ) : List ℚ :=
  (List.range fs.n_features_in_).flatMap fun j => fs.featureBasis j (r.getD j 0)

/-- The raw spline-basis expansion of a whole matrix, row by row. -/
def basisExpansion (fs : SplineTransformer) (X : Mat) : Mat :=
  X.map fs.transformRow

/-- Modelled from the spec: the collaborator transform checks that the column
count matches the fit-time count (shape-mismatch error otherwise) and then
evaluates the basis row by row. -/
def SplineTransformer.transform (fs : SplineTransformer) (X : Mat) : Except Err Mat :=
  if (X.headD []).length = fs.n_features_in_ then .ok (basisExpansion fs X)
  else .error .shapeMismatch

/-- Running cumulative sums continuing from the accumulator acc: each output
row is the elementwise sum of acc and all input rows so far. -/
def cumsumFrom (acc : List ℚ) : List (List ℚ) → List (List ℚ)
  | [] => []
  | r :: rs =>
    let s := List.zipWith (· + ·) acc r
    s :: cumsumFrom s rs

/-- np.cumsum along axis 0: running totals down each column across samples. -/
def cumsum0 : List (List ℚ) → List (List ℚ)
  | [] => []
  | r :: rs => r :: cumsumFrom r rs

/-- The estimator of the source: three constructor parameters with their
defaults and the fitted attribute spline_transformer_, absent until fit. -/
structure MonotonicSplineTransformer where
  n_knots : ℕ := 3
  degree : ℕ := 3
  knots : KnotStrategy := .uniform
  spline_transformer_ : Option SplineTransformer := none
deriving DecidableEq

/-- fit of the source: check_array with copy=True and force_all_finite=False,
then fit the spline collaborator on the validated array and store it. -/
def MonotonicSplineTransformer.fit (est : MonotonicSplineTransformer) (X : Mat) :
    Except Err MonotonicSplineTransformer :=
  match check_array false (fun _ => true) X with
  | .error e => .error e
  | .ok Xc =>
    match SplineTransformer.fit est.n_knots est.degree est.knots Xc with
    | .error e => .error e
    | .ok fs => .ok { est with spline_transformer_ := some fs }

/-- transform of the source: check_is_fitted, then check_array with
force_all_finite=False and no copy, then the collaborator basis evaluation
followed by the cumulative sum along the sample axis. -/
def MonotonicSplineTransformer.transform (est : MonotonicSplineTransformer) (X : Mat) :
    Except Err Mat :=
  match est.spline_transformer_ with
  | none => .error .notFittedError
  | some fs =>
    match check_array false (fun _ => true) X with
    | .error e => .error e
    | .ok Xv =>
      match fs.transform Xv with
      | .error e => .error e
      | .ok B => .ok (cumsum0 B)

/-- The estimator value that a successful fit on X returns: all constructor
parameters kept, the fitted collaborator stored in spline_transformer_. -/
def MonotonicSplineTransformer.fitted (est : MonotonicSplineTransformer) (X : Mat) :
    MonotonicSplineTransformer :=
  { est with
    spline_transformer_ :=
      some (SplineTransformer.fitState est.n_knots est.degree est.knots X) }

/-- The validation step of fit at the level of possibly non-finite scalars:
exactly the check_array call of the source, with force_all_finite=False. -/
def fit_validation (X : List (List Val)) : Except Err (List (List Val)) :=
  check_array false Val.isFinite X

/-- Matrix entry at row i and column c, with out-of-range defaults. -/
def entryD (M : Mat) (i c : ℕ) : ℚ := (M.getD i []).getD c 0

/-- A caller-visible program state: the estimator object and the contents of
the caller array that is passed to fit or transform. -/
structure ProgState where
  est : MonotonicSplineTransformer
  arr : Mat
deriving DecidableEq

/-- State-passing model of executing est.fit(X): check_array is called with
copy=True, so the collaborators only ever read a copy and the caller array
contents are unchanged; the estimator is updated and also returned. -/
def fitCall (st : ProgState) : Except Err (ProgState × MonotonicSplineTransformer) :=
  match st.est.fit st.arr with
  | .error e => .error e
  | .ok est2 => .ok ({ est := est2, arr := st.arr }, est2)

/-- State-passing model of executing est.transform(X): the collaborators read
the array and produce fresh output values, so neither the caller array
contents nor the estimator are changed. -/
def transformCall (st : ProgState) : Except Err (ProgState × Mat) :=
  match st.est.transform st.arr with
  | .error e => .error e
  | .ok Y => .ok (st, Y)

/-- Concrete unfitted estimator used by witnesses (degree one for easy hand
evaluation). -/
def estW : MonotonicSplineTransformer :=
  { n_knots := 3, degree := 1, knots := .uniform, spline_transformer_ := none }

/-- The fitted collaborator state that estW.fit computes on [[0],[2]]. -/
def fsW : SplineTransformer :=
  { degree := 1, n_knots := 3, n_features_in_ := 1,
    featKnots := [[-1, 0, 1, 2, 3]], featMin := [0], featMax := [2] }

/-- estW after fitting on [[0],[2]]. -/
def estWf : MonotonicSplineTransformer :=
  { n_knots := 3, degree := 1, knots := .uniform, spline_transformer_ := some fsW }

/-- Single-column input of 100 evenly spaced values from 0 to 1. -/
def X100 : Mat := (List.range 100).map fun (i : ℕ) => [(i : ℚ) / 99]

/-- Concrete program state holding the fitted estimator estWf and the small
two-row array. -/
def stW : ProgState := { est := estWf, arr := [[0], [2]] }

/-- Concrete program state holding the unfitted estimator estW and the small
two-row array. -/
def stW0 : ProgState := { est := estW, arr := [[0], [2]] }

/-! ## List helper lemmas -/

theorem getD_mono_of_sorted {l : List ℚ} (hs : l.Sorted (· ≤ ·))
    {i j : ℕ} (hij : i ≤ j) (hj : j < l.length) : l.getD i 0 ≤ l.getD j 0 := by
  rcases eq_or_lt_of_le hij with h | h
  · subst h; exact le_refl _
  · have hi : i < l.length := lt_trans h hj
    rw [List.getD_eq_getElem l 0 hi, List.getD_eq_getElem l 0 hj]
    have := List.pairwise_iff_get.mp hs ⟨i, hi⟩ ⟨j, hj⟩ h
    simpa using this

theorem getD_nonneg {r : List ℚ} (h : ∀ v ∈ r, 0 ≤ v) (c : ℕ) : 0 ≤ r.getD c 0 := by
  by_cases hc : c < r.length
  · rw [List.getD_eq_getElem r 0 hc]
    exact h _ (List.getElem_mem hc)
  · rw [List.getD_eq_default r 0 (le_of_not_lt hc)]

theorem getD_zipWith_add : ∀ (a b : List ℚ), b.length = a.length → ∀ c : ℕ,
    (List.zipWith (· + ·) a b).getD c 0 = a.getD c 0 + b.getD c 0
  | [], [], _, c => by simp
  | [], y :: ys, h, c => by simp at h
  | x :: xs, [], h, c => by simp at h
  | x :: xs, y :: ys, h, c => by
    cases c with
    | zero => simp [List.zipWith]
    | succ c =>
      simp only [List.zipWith, List.getD_cons_succ]
      exact getD_zipWith_add xs ys (by simpa using h) c

theorem sorted_map_range {f : ℕ → ℚ} (n : ℕ)
    (hf : ∀ a b, a < b → b < n → f a ≤ f b) :
    ((List.range n).map f).Sorted (· ≤ ·) := by
  rw [List.Sorted, List.pairwise_map]
  refine List.Pairwise.imp_of_mem ?_ (List.pairwise_lt_range n)
  intro a b ha hb hab
  exact hf a b hab (List.mem_range.mp hb)

theorem sorted_headD_le {l : List ℚ} (hs : l.Sorted (· ≤ ·)) (y : ℚ) (hy : y ∈ l) :
    l.headD 0 ≤ y := by
  cases l with
  | nil => cases hy
  | cons a l =>
    rcases List.mem_cons.mp hy with rfl | h
    · exact le_refl _
    · exact (List.sorted_cons.mp hs).1 y h

theorem getLastD_eq_getD (l : List ℚ) (d : ℚ) : l.getLastD d = l.getD (l.length - 1) d := by
  rw [List.getLastD_eq_getLast?, List.getLast?_eq_getElem?, List.getD_eq_getElem?_getD]

theorem sorted_le_getLastD {l : List ℚ} (hs : l.Sorted (· ≤ ·)) (y : ℚ) (hy : y ∈ l) :
    y ≤ l.getLastD 0 := by
  rw [getLastD_eq_getD]
  obtain ⟨i, hi, rfl⟩ := List.mem_iff_getElem.mp hy
  rw [← List.getD_eq_getElem l 0 hi]
  apply getD_mono_of_sorted hs (by omega) (by omega)

theorem headD_le_getLastD {l : List ℚ} (hs : l.Sorted (· ≤ ·)) (hne : l ≠ []) :
    l.headD 0 ≤ l.getLastD 0 := by
  cases l with
  | nil => cases hne rfl
  | cons a l => exact sorted_le_getLastD hs _ (by simp)

/-! ## Monotone knots and non-negativity of the B-spline basis -/

theorem knotAt_mono {kl : List ℚ} (hs : kl.Sorted (· ≤ ·)) (m : ℕ) :
    knotAt kl m ≤ knotAt kl (m + 1) := by
  unfold knotAt
  rcases Nat.eq_zero_or_pos kl.length with h0 | hpos
  · rw [List.length_eq_zero.mp h0]; simp
  · exact getD_mono_of_sorted hs
      (min_le_min (Nat.le_succ m) (le_refl _))
      (by omega)

theorem bspl_nonneg_support {t : ℕ → ℚ} (ht : ∀ m, t m ≤ t (m + 1)) :
    ∀ (k i : ℕ) (x : ℚ),
      0 ≤ bspl t k i x ∧ (bspl t k i x ≠ 0 → t i ≤ x ∧ x < t (i + k + 1)) := by
  have hmono : Monotone t := monotone_nat_of_le_succ ht
  intro k
  induction k with
  | zero =>
    intro i x
    constructor
    · unfold bspl; split <;> norm_num
    · unfold bspl; split
      · next hcond =>
          intro _
          exact ⟨hcond.1, by simpa using hcond.2⟩
      · intro hne; simp at hne
  | succ k ih =>
    intro i x
    have hA := ih i x
    have hB := ih (i + 1) x
    have term1 : 0 ≤ (x - t i) / (t (i + k + 1) - t i) * bspl t k i x := by
      by_cases hz : bspl t k i x = 0
      · rw [hz, mul_zero]
      · have hsup := hA.2 hz
        have h1 : 0 ≤ x - t i := by linarith [hsup.1]
        have h2 : 0 ≤ t (i + k + 1) - t i := by linarith [hsup.1, hsup.2]
        exact mul_nonneg (div_nonneg h1 h2) hA.1
    have term2 : 0 ≤ (t (i + k + 2) - x) / (t (i + k + 2) - t (i + 1)) * bspl t k (i + 1) x := by
      by_cases hz : bspl t k (i + 1) x = 0
      · rw [hz, mul_zero]
      · have hsup := hB.2 hz
        have he : i + 1 + k + 1 = i + k + 2 := by omega
        rw [he] at hsup
        have h1 : 0 ≤ t (i + k + 2) - x := by linarith [hsup.2]
        have h2 : 0 ≤ t (i + k + 2) - t (i + 1) := by linarith [hsup.1, hsup.2]
        exact mul_nonneg (div_nonneg h1 h2) hB.1
    have heq : bspl t (k + 1) i x =
        (x - t i) / (t (i + k + 1) - t i) * bspl t k i x +
          (t (i + k + 2) - x) / (t (i + k + 2) - t (i + 1)) * bspl t k (i + 1) x := by
      rfl
    constructor
    · rw [heq]; exact add_nonneg term1 term2
    · intro hne
      rw [heq] at hne
      have hone : (x - t i) / (t (i + k + 1) - t i) * bspl t k i x ≠ 0 ∨
          (t (i + k + 2) - x) / (t (i + k + 2) - t (i + 1)) * bspl t k (i + 1) x ≠ 0 := by
        by_contra hcon
        push_neg at hcon
        rw [hcon.1, hcon.2] at hne
        simp at hne
      have hidx : i + (k + 1) + 1 = i + k + 2 := by omega
      rcases hone with h1 | h2
      · have hz : bspl t k i x ≠ 0 := by
          intro hz0; rw [hz0, mul_zero] at h1; exact h1 rfl
        have hsup := hA.2 hz
        refine ⟨hsup.1, ?_⟩
        rw [hidx]
        exact lt_of_lt_of_le hsup.2 (hmono (by omega : i + k + 1 ≤ i + k + 2))
      · have hz : bspl t k (i + 1) x ≠ 0 := by
          intro hz0; rw [hz0, mul_zero] at h2; exact h2 rfl
        have hsup := hB.2 hz
        have he : i + 1 + k + 1 = i + k + 2 := by omega
        rw [he] at hsup
        refine ⟨le_trans (ht i) hsup.1, ?_⟩
        rw [hidx]
        exact hsup.2

theorem foldl_min_le (l : List ℚ) (a : ℚ) : l.foldl min a ≤ a := by
  induction l generalizing a with
  | nil => simp
  | cons x xs ih => exact le_trans (ih _) (min_le_left a x)

theorem le_foldl_max (l : List ℚ) (a : ℚ) : a ≤ l.foldl max a := by
  induction l generalizing a with
  | nil => simp
  | cons x xs ih => exact le_trans (le_max_left a x) (ih _)

theorem amin_le_amax (xs : List ℚ) : amin xs ≤ amax xs :=
  le_trans (foldl_min_le xs _) (le_foldl_max xs _)

theorem linspace_sorted {lo hi : ℚ} (h : lo ≤ hi) (n : ℕ) :
    (linspace lo hi n).Sorted (· ≤ ·) := by
  unfold linspace
  apply sorted_map_range
  intro a b hab _
  have hd : 0 ≤ (hi - lo) / ((n - 1 : ℕ) : ℚ) :=
    div_nonneg (by linarith) (Nat.cast_nonneg _)
  have hcast : (a : ℚ) ≤ (b : ℚ) := by exact_mod_cast le_of_lt hab
  have := mul_le_mul_of_nonneg_right hcast hd
  linarith

theorem linspace_length (lo hi : ℚ) (n : ℕ) : (linspace lo hi n).length = n := by
  rw [linspace, List.length_map, List.length_range]

theorem interpAt_mono {s : List ℚ} (hs : s.Sorted (· ≤ ·)) {p1 p2 : ℚ}
    (h0 : 0 ≤ p1) (h12 : p1 ≤ p2) (h2 : p2 ≤ ((s.length - 1 : ℕ) : ℚ)) :
    interpAt s p1 ≤ interpAt s p2 := by
  by_cases hnil : s = []
  · subst hnil; simp [interpAt]
  have hn : 1 ≤ s.length := by
    cases s with
    | nil => cases hnil rfl
    | cons a l => simp
  have h02 : 0 ≤ p2 := le_trans h0 h12
  set i1 : ℕ := ⌊p1⌋₊ with hi1def
  set i2 : ℕ := ⌊p2⌋₊ with hi2def
  have h1le2 : i1 ≤ i2 := Nat.floor_le_floor h12
  have hi2top : i2 ≤ s.length - 1 := by
    have := Nat.floor_le_floor h2
    rwa [Nat.floor_natCast] at this
  have hi1top : i1 ≤ s.length - 1 := le_trans h1le2 hi2top
  have hfl1 : (i1 : ℚ) ≤ p1 := Nat.floor_le h0
  have hfl2 : (i2 : ℚ) ≤ p2 := Nat.floor_le h02
  have hlt1 : p1 < (i1 : ℚ) + 1 := Nat.lt_floor_add_one p1
  have hlohi1 : s.getD i1 0 ≤ s.getD (min (i1 + 1) (s.length - 1)) 0 :=
    getD_mono_of_sorted hs (le_min (Nat.le_succ i1) hi1top) (by omega)
  have hlohi2 : s.getD i2 0 ≤ s.getD (min (i2 + 1) (s.length - 1)) 0 :=
    getD_mono_of_sorted hs (le_min (Nat.le_succ i2) hi2top) (by omega)
  unfold interpAt
  rw [← hi1def, ← hi2def]
  rcases eq_or_lt_of_le h1le2 with heq | hlt
  · rw [← heq]
    have := mul_le_mul_of_nonneg_right (sub_le_sub_right h12 ((i1 : ℕ) : ℚ))
      (by linarith : (0:ℚ) ≤ s.getD (min (i1 + 1) (s.length - 1)) 0 - s.getD i1 0)
    linarith
  · have hv1hi : s.getD i1 0 + (p1 - (i1 : ℚ)) *
        (s.getD (min (i1 + 1) (s.length - 1)) 0 - s.getD i1 0) ≤
        s.getD (min (i1 + 1) (s.length - 1)) 0 := by
      have hf1 : p1 - (i1 : ℚ) ≤ 1 := by linarith
      nlinarith [hlohi1]
    have hmid : s.getD (min (i1 + 1) (s.length - 1)) 0 ≤ s.getD i2 0 :=
      getD_mono_of_sorted hs (le_trans (min_le_left _ _) hlt) (by omega)
    have hv2lo : s.getD i2 0 ≤ s.getD i2 0 + (p2 - (i2 : ℚ)) *
        (s.getD (min (i2 + 1) (s.length - 1)) 0 - s.getD i2 0) := by
      have hf2 : 0 ≤ p2 - (i2 : ℚ) := by linarith
      nlinarith [hlohi2]
    linarith

theorem percentile_mono (xs : List ℚ) {q1 q2 : ℚ}
    (h0 : 0 ≤ q1) (h12 : q1 ≤ q2) (h1 : q2 ≤ 1) :
    percentile xs q1 ≤ percentile xs q2 := by
  unfold percentile
  have hsort : (List.insertionSort (· ≤ ·) xs).Sorted (· ≤ ·) :=
    List.sorted_insertionSort _ _
  apply interpAt_mono hsort
  · exact mul_nonneg h0 (Nat.cast_nonneg _)
  · exact mul_le_mul_of_nonneg_right h12 (Nat.cast_nonneg _)
  · calc q2 * (((List.insertionSort (· ≤ ·) xs).length - 1 : ℕ) : ℚ)
        ≤ 1 * (((List.insertionSort (· ≤ ·) xs).length - 1 : ℕ) : ℚ) :=
          mul_le_mul_of_nonneg_right h1 (Nat.cast_nonneg _)
      _ = _ := one_mul _

theorem baseKnots_sorted (strategy : KnotStrategy) (n_knots : ℕ) (col : List ℚ) :
    (baseKnots strategy n_knots col).Sorted (· ≤ ·) := by
  cases strategy with
  | uniform => exact linspace_sorted (amin_le_amax col) n_knots
  | quantile =>
    unfold baseKnots
    apply sorted_map_range
    intro a b hab hb
    have hk2 : 2 ≤ n_knots := by omega
    have hdenpos : (0 : ℚ) < ((n_knots - 1 : ℕ) : ℚ) := by
      have : 1 ≤ n_knots - 1 := by omega
      exact_mod_cast Nat.lt_of_lt_of_le Nat.zero_lt_one this
    apply percentile_mono
    · exact div_nonneg (Nat.cast_nonneg _) (le_of_lt hdenpos)
    · apply div_le_div_of_nonneg_right ?_ (le_of_lt hdenpos)
      exact_mod_cast le_of_lt hab
    · rw [div_le_one hdenpos]
      have : b ≤ n_knots - 1 := by omega
      exact_mod_cast this

theorem baseKnots_length (strategy : KnotStrategy) (n_knots : ℕ) (col : List ℚ) :
    (baseKnots strategy n_knots col).length = n_knots := by
  cases strategy with
  | uniform => exact linspace_length _ _ _
  | quantile => simp [baseKnots]

theorem sorted_append_iff {l₁ l₂ : List ℚ} :
    (l₁ ++ l₂).Sorted (· ≤ ·) ↔
      l₁.Sorted (· ≤ ·) ∧ l₂.Sorted (· ≤ ·) ∧ ∀ a ∈ l₁, ∀ b ∈ l₂, a ≤ b :=
  List.pairwise_append

theorem extendKnots_sorted {base : List ℚ} (hs : base.Sorted (· ≤ ·))
    (hlen : 2 ≤ base.length) (degree : ℕ) :
    (extendKnots degree base).Sorted (· ≤ ·) := by
  simp only [extendKnots]
  have hne : base ≠ [] := by
    intro h; rw [h] at hlen; simp at hlen
  have hb0 : base.headD 0 = base.getD 0 0 := by
    cases base with
    | nil => rfl
    | cons a l => rfl
  have hbL : base.getLastD 0 = base.getD (base.length - 1) 0 := getLastD_eq_getD _ _
  have hdmin : 0 ≤ base.getD 1 0 - base.headD 0 := by
    rw [hb0]
    have := getD_mono_of_sorted hs (by omega : (0:ℕ) ≤ 1) (by omega : 1 < base.length)
    linarith
  have hdmax : 0 ≤ base.getLastD 0 - base.getD (base.length - 2) 0 := by
    rw [hbL]
    have := getD_mono_of_sorted hs (by omega : base.length - 2 ≤ base.length - 1)
      (by omega : base.length - 1 < base.length)
    linarith
  have hb0L : base.headD 0 ≤ base.getLastD 0 := headD_le_getLastD hs hne
  have hlosorted : (((List.range degree).map fun (m : ℕ) =>
      base.headD 0 - ((degree - m : ℕ) : ℚ) * (base.getD 1 0 - base.headD 0))).Sorted (· ≤ ·) := by
    apply sorted_map_range
    intro a b hab hb
    have hcast : ((degree - b : ℕ) : ℚ) ≤ ((degree - a : ℕ) : ℚ) := by
      exact_mod_cast Nat.sub_le_sub_left (le_of_lt hab) degree
    have := mul_le_mul_of_nonneg_right hcast hdmin
    linarith
  have hhisorted : (((List.range degree).map fun (m : ℕ) =>
      base.getLastD 0 + ((m + 1 : ℕ) : ℚ) *
        (base.getLastD 0 - base.getD (base.length - 2) 0))).Sorted (· ≤ ·) := by
    apply sorted_map_range
    intro a b hab hb
    have hcast : ((a + 1 : ℕ) : ℚ) ≤ ((b + 1 : ℕ) : ℚ) := by
      exact_mod_cast Nat.succ_le_succ (le_of_lt hab)
    have := mul_le_mul_of_nonneg_right hcast hdmax
    linarith
  have hlo_le : ∀ x ∈ (List.range degree).map fun (m : ℕ) =>
      base.headD 0 - ((degree - m : ℕ) : ℚ) * (base.getD 1 0 - base.headD 0),
      x ≤ base.headD 0 := by
    intro x hx
    simp only [List.mem_map, List.mem_range] at hx
    obtain ⟨m, hm, rfl⟩ := hx
    have : (0 : ℚ) ≤ ((degree - m : ℕ) : ℚ) * (base.getD 1 0 - base.headD 0) :=
      mul_nonneg (Nat.cast_nonneg _) hdmin
    linarith
  have hhi_ge : ∀ y ∈ (List.range degree).map fun (m : ℕ) =>
      base.getLastD 0 + ((m + 1 : ℕ) : ℚ) *
        (base.getLastD 0 - base.getD (base.length - 2) 0),
      base.getLastD 0 ≤ y := by
    intro y hy
    simp only [List.mem_map, List.mem_range] at hy
    obtain ⟨m, hm, rfl⟩ := hy
    have : (0 : ℚ) ≤ ((m + 1 : ℕ) : ℚ) *
        (base.getLastD 0 - base.getD (base.length - 2) 0) :=
      mul_nonneg (Nat.cast_nonneg _) hdmax
    linarith
  rw [sorted_append_iff]
  refine ⟨?_, ?_, ?_⟩
  · rw [sorted_append_iff]
    refine ⟨hlosorted, hs, ?_⟩
    intro x hx y hy
    exact le_trans (hlo_le x hx) (sorted_headD_le hs y hy)
  · exact hhisorted
  · intro x hx y hy
    rcases List.mem_append.mp hx with hx1 | hx2
    · exact le_trans (le_trans (hlo_le x hx1) hb0L) (hhi_ge y hy)
    · exact le_trans (sorted_le_getLastD hs x hx2) (hhi_ge y hy)

theorem fitState_featKnots_sorted (n_knots degree : ℕ) (strategy : KnotStrategy)
    (X : Mat) (h2 : 2 ≤ n_knots) :
    ∀ kl ∈ (SplineTransformer.fitState n_knots degree strategy X).featKnots,
      kl.Sorted (· ≤ ·) := by
  intro kl hkl
  simp only [SplineTransformer.fitState, List.mem_map] at hkl
  obtain ⟨col, hcol, rfl⟩ := hkl
  exact extendKnots_sorted (baseKnots_sorted strategy n_knots col)
    (by rw [baseKnots_length]; exact h2) degree

/-! ## Shape and sign of the basis expansion -/

theorem featureBasis_nonneg {fs : SplineTransformer}
    (hks : ∀ kl ∈ fs.featKnots, kl.Sorted (· ≤ ·)) (j : ℕ) (x : ℚ) :
    ∀ v ∈ fs.featureBasis j x, 0 ≤ v := by
  intro v hv
  simp only [SplineTransformer.featureBasis, List.mem_map, List.mem_range] at hv
  obtain ⟨i, hi, rfl⟩ := hv
  have hsorted : (fs.featKnots.getD j []).Sorted (· ≤ ·) := by
    by_cases hj : j < fs.featKnots.length
    · rw [List.getD_eq_getElem _ _ hj]
      exact hks _ (List.getElem_mem hj)
    · rw [List.getD_eq_default _ _ (le_of_not_lt hj)]
      exact List.sorted_nil
  exact (bspl_nonneg_support (fun m => knotAt_mono hsorted m) fs.degree i _).1

theorem transformRow_nonneg {fs : SplineTransformer}
    (hks : ∀ kl ∈ fs.featKnots, kl.Sorted (· ≤ ·)) (r : List ℚ) :
    ∀ v ∈ fs.transformRow r, 0 ≤ v := by
  intro v hv
  simp only [SplineTransformer.transformRow, List.mem_flatMap, List.mem_range] at hv
  obtain ⟨j, hj, hvmem⟩ := hv
  exact featureBasis_nonneg hks j _ v hvmem

theorem sum_map_const {α : Type} (l : List α) (m : ℕ) :
    (l.map fun _ => m).sum = l.length * m := by
  induction l with
  | nil => simp
  | cons a l ih => simp [ih, Nat.succ_mul, Nat.add_comm]

theorem featureBasis_length (fs : SplineTransformer) (j : ℕ) (x : ℚ) :
    (fs.featureBasis j x).length = fs.nSplines := by
  simp [SplineTransformer.featureBasis]

theorem transformRow_length (fs : SplineTransformer) (r : List ℚ) :
    (fs.transformRow r).length = fs.n_features_in_ * fs.nSplines := by
  simp only [SplineTransformer.transformRow, List.length_flatMap]
  rw [show (List.length ∘ fun j => fs.featureBasis j (r.getD j 0)) =
      fun _ : ℕ => fs.nSplines from funext fun j => featureBasis_length fs j _]
  rw [sum_map_const, List.length_range]

/-! ## Cumulative sum lemmas -/

theorem cumsumFrom_length (acc : List ℚ) (rows : List (List ℚ)) :
    (cumsumFrom acc rows).length = rows.length := by
  induction rows generalizing acc with
  | nil => rfl
  | cons r rs ih => simp [cumsumFrom, ih]

theorem cumsum0_length (rows : List (List ℚ)) : (cumsum0 rows).length = rows.length := by
  cases rows with
  | nil => rfl
  | cons r rs => simp [cumsum0, cumsumFrom_length]

theorem cumsumFrom_rowlen (acc : List ℚ) (rows : List (List ℚ)) (m : ℕ)
    (ha : acc.length = m) (h : ∀ r ∈ rows, r.length = m) :
    ∀ r ∈ cumsumFrom acc rows, r.length = m := by
  induction rows generalizing acc with
  | nil => intro r hr; cases hr
  | cons r rs ih =>
    intro s hsm
    have hzl : (List.zipWith (· + ·) acc r).length = m := by
      rw [List.length_zipWith, ha, h r (by simp)]
      exact min_self m
    simp only [cumsumFrom] at hsm
    rcases List.mem_cons.mp hsm with rfl | hs2
    · exact hzl
    · exact ih _ hzl (fun r2 hr2 => h r2 (by simp [hr2])) s hs2

theorem cumsum0_rowlen (rows : List (List ℚ)) (m : ℕ)
    (h : ∀ r ∈ rows, r.length = m) : ∀ r ∈ cumsum0 rows, r.length = m := by
  cases rows with
  | nil => intro r hr; cases hr
  | cons r rs =>
    intro s hs
    simp only [cumsum0] at hs
    rcases List.mem_cons.mp hs with rfl | hs2
    · exact h _ (by simp)
    · exact cumsumFrom_rowlen r rs m (h r (by simp))
        (fun r2 hr2 => h r2 (by simp [hr2])) s hs2

theorem cumsumFrom_ge_acc (rows : List (List ℚ)) :
    ∀ (acc : List ℚ) (c : ℕ), (∀ r ∈ rows, r.length = acc.length) →
    (∀ r ∈ rows, ∀ v ∈ r, 0 ≤ v) →
    ∀ s ∈ cumsumFrom acc rows, acc.getD c 0 ≤ s.getD c 0 := by
  induction rows with
  | nil => intro acc c _ _ s hs; cases hs
  | cons r rs ih =>
    intro acc c hlen hnn s hsm
    have hr : r.length = acc.length := hlen r (by simp)
    have hstep : acc.getD c 0 ≤ (List.zipWith (· + ·) acc r).getD c 0 := by
      rw [getD_zipWith_add acc r hr c]
      have := getD_nonneg (hnn r (by simp)) c
      linarith
    have hzlen : (List.zipWith (· + ·) acc r).length = acc.length := by
      rw [List.length_zipWith, hr]; exact min_self _
    simp only [cumsumFrom] at hsm
    rcases List.mem_cons.mp hsm with rfl | hs2
    · exact hstep
    · refine le_trans hstep (ih _ c ?_ ?_ s hs2)
      · intro r2 hr2; rw [hzlen]; exact hlen r2 (by simp [hr2])
      · intro r2 hr2; exact hnn r2 (by simp [hr2])

theorem cumsum_entries_mono (rows : List (List ℚ)) :
    ∀ (acc : List ℚ), (∀ r ∈ rows, r.length = acc.length) →
    (∀ r ∈ rows, ∀ v ∈ r, 0 ≤ v) →
    ∀ i j c : ℕ, i < j → j < (acc :: cumsumFrom acc rows).length →
      ((acc :: cumsumFrom acc rows).getD i []).getD c 0 ≤
        ((acc :: cumsumFrom acc rows).getD j []).getD c 0 := by
  induction rows with
  | nil =>
    intro acc _ _ i j c hij hj
    simp only [cumsumFrom, List.length_cons, List.length_nil] at hj
    omega
  | cons r rs ih =>
    intro acc hlen hnn i j c hij hj
    have hr : r.length = acc.length := hlen r (by simp)
    have hzlen : (List.zipWith (· + ·) acc r).length = acc.length := by
      rw [List.length_zipWith, hr]; exact min_self _
    have hlen2 : ∀ r2 ∈ rs, r2.length = (List.zipWith (· + ·) acc r).length :=
      fun r2 hr2 => by rw [hzlen]; exact hlen r2 (by simp [hr2])
    have hnn2 : ∀ r2 ∈ rs, ∀ v ∈ r2, 0 ≤ v := fun r2 hr2 => hnn r2 (by simp [hr2])
    cases i with
    | zero =>
      cases j with
      | zero => omega
      | succ j =>
        simp only [List.getD_cons_zero, List.getD_cons_succ]
        have hjlen : j < (cumsumFrom acc (r :: rs)).length := by
          simp only [List.length_cons] at hj
          rw [cumsumFrom_length]
          simp only [cumsumFrom_length, List.length_cons] at hj ⊢
          omega
        have hmem : (cumsumFrom acc (r :: rs)).getD j [] ∈ cumsumFrom acc (r :: rs) := by
          rw [List.getD_eq_getElem _ _ hjlen]
          exact List.getElem_mem hjlen
        exact cumsumFrom_ge_acc (r :: rs) acc c hlen hnn _ hmem
    | succ i =>
      cases j with
      | zero => omega
      | succ j =>
        simp only [List.getD_cons_succ]
        have : cumsumFrom acc (r :: rs) =
            List.zipWith (· + ·) acc r :: cumsumFrom (List.zipWith (· + ·) acc r) rs := by
          simp [cumsumFrom]
        rw [this]
        apply ih _ hlen2 hnn2 i j c (by omega)
        rw [← this]
        simp only [List.length_cons] at hj ⊢
        rw [cumsumFrom_length] at hj ⊢
        simpa using hj

theorem cumsum0_entries_mono (rows : List (List ℚ)) (m : ℕ)
    (hlen : ∀ r ∈ rows, r.length = m) (hnn : ∀ r ∈ rows, ∀ v ∈ r, 0 ≤ v)
    (i j c : ℕ) (hij : i < j) (hj : j < (cumsum0 rows).length) :
    ((cumsum0 rows).getD i []).getD c 0 ≤ ((cumsum0 rows).getD j []).getD c 0 := by
  cases rows with
  | nil => simp [cumsum0] at hj
  | cons r rs =>
    have hr : cumsum0 (r :: rs) = r :: cumsumFrom r rs := rfl
    rw [hr] at hj ⊢
    apply cumsum_entries_mono rs r
      (fun r2 hr2 => by rw [hlen r (by simp)]; exact hlen r2 (by simp [hr2]))
      (fun r2 hr2 => hnn r2 (by simp [hr2])) i j c hij hj

theorem cumsumFrom_append (xs : List (List ℚ)) :
    ∀ (acc : List ℚ) (ys : List (List ℚ)),
    cumsumFrom acc (xs ++ ys) =
      cumsumFrom acc xs ++
        cumsumFrom (xs.foldl (fun a r => List.zipWith (· + ·) a r) acc) ys := by
  induction xs with
  | nil => intro acc ys; simp [cumsumFrom]
  | cons x xs ih =>
    intro acc ys
    simp only [List.cons_append, cumsumFrom, List.foldl_cons, List.append_eq]
    rw [ih]

theorem cumsum0_take_append (xs ys : List (List ℚ)) :
    (cumsum0 (xs ++ ys)).take xs.length = cumsum0 xs := by
  cases xs with
  | nil => simp [cumsum0]
  | cons x xs =>
    simp only [List.cons_append, List.length_cons]
    have h1 : cumsum0 (x :: (xs ++ ys)) = x :: cumsumFrom x (xs ++ ys) := rfl
    have h2 : cumsum0 (x :: xs) = x :: cumsumFrom x xs := rfl
    rw [h1, h2, cumsumFrom_append, List.take_succ_cons]
    congr 1
    exact List.take_left' (cumsumFrom_length x xs)

theorem cumsumFrom_getLastD (rows : List (List ℚ)) :
    ∀ acc : List ℚ, (cumsumFrom acc rows).getLastD acc =
      rows.foldl (fun a r => List.zipWith (· + ·) a r) acc := by
  induction rows with
  | nil => intro acc; rfl
  | cons r rs ih =>
    intro acc
    simp only [cumsumFrom, List.foldl_cons, List.getLastD_cons]
    exact ih _

theorem foldl_zipadd_getD (rows : List (List ℚ)) :
    ∀ (acc : List ℚ) (c : ℕ), (∀ r ∈ rows, r.length = acc.length) →
    (rows.foldl (fun a r => List.zipWith (· + ·) a r) acc).getD c 0 =
      acc.getD c 0 + (rows.map (fun r => r.getD c 0)).sum := by
  induction rows with
  | nil => intro acc c _; simp
  | cons r rs ih =>
    intro acc c hlen
    have hr : r.length = acc.length := hlen r (by simp)
    have hzlen : (List.zipWith (· + ·) acc r).length = acc.length := by
      rw [List.length_zipWith, hr]; exact min_self _
    simp only [List.foldl_cons, List.map_cons, List.sum_cons]
    rw [ih _ c (fun r2 hr2 => by rw [hzlen]; exact hlen r2 (by simp [hr2]))]
    rw [getD_zipWith_add acc r hr c]
    ring

/-! ## Inversion lemmas for the estimator operations -/

theorem check_array_ok_inv {α : Type} {fff : Bool} {isFin : α → Bool}
    {X Y : List (List α)} (h : check_array fff isFin X = .ok Y) :
    Y = X ∧ X ≠ [] ∧ (X.headD []).length ≠ 0 ∧
      ∀ r ∈ X, r.length = (X.headD []).length := by
  unfold check_array at h
  split at h
  · cases h
  · split at h
    · cases h
    · split at h
      · cases h
      · split at h
        · cases h
        · cases h
          next h1 h2 h3 _ =>
            refine ⟨rfl, ?_, h2, ?_⟩
            · intro hnil
              subst hnil
              exact h1 rfl
            · intro r hr
              by_contra hcon
              apply h3
              rw [List.any_eq_true]
              exact ⟨r, hr, by simpa using hcon⟩

theorem check_array_ok_of {α : Type} (isFin : α → Bool) {X : List (List α)}
    (h1 : X ≠ []) (h2 : (X.headD []).length ≠ 0)
    (h3 : ∀ r ∈ X, r.length = (X.headD []).length) :
    check_array false isFin X = .ok X := by
  unfold check_array
  have hA : ¬ (X.length = 0) := fun hc => h1 (List.length_eq_zero.mp hc)
  have hC : ¬ ((X.any fun r => r.length ≠ (X.headD []).length) = true) := by
    intro hc
    rw [List.any_eq_true] at hc
    obtain ⟨r, hr, hner⟩ := hc
    exact (by simpa using hner : r.length ≠ (X.headD []).length) (h3 r hr)
  rw [if_neg hA, if_neg h2, if_neg hC, if_neg (by simp)]

theorem fit_ok_inv {est est2 : MonotonicSplineTransformer} {X : Mat}
    (h : est.fit X = .ok est2) :
    check_array false (fun _ => true) X = .ok X ∧ 2 ≤ est.n_knots ∧
      est2 = est.fitted X := by
  unfold MonotonicSplineTransformer.fit at h
  cases hchk : check_array false (fun _ => true) X with
  | error e => rw [hchk] at h; cases h
  | ok Xc =>
    have hXc : Xc = X := (check_array_ok_inv hchk).1
    rw [hXc] at hchk
    rw [hchk] at h
    simp only [] at h
    unfold SplineTransformer.fit at h
    rcases Nat.lt_or_ge est.n_knots 2 with hlt | hge
    · rw [if_pos hlt] at h
      simp only [] at h
      cases h
    · rw [if_neg (by omega : ¬ est.n_knots < 2)] at h
      simp only [] at h
      cases h
      exact ⟨by rw [hXc], hge, rfl⟩

theorem fit_ok_of (est : MonotonicSplineTransformer) {X : Mat}
    (hchk : check_array false (fun _ => true) X = .ok X) (h2 : 2 ≤ est.n_knots) :
    est.fit X = .ok (est.fitted X) := by
  simp only [MonotonicSplineTransformer.fit, hchk, SplineTransformer.fit,
    if_neg (by omega : ¬ est.n_knots < 2)]
  rfl

theorem spline_transform_ok_inv {fs : SplineTransformer} {X B : Mat}
    (h : fs.transform X = .ok B) :
    (X.headD []).length = fs.n_features_in_ ∧ B = basisExpansion fs X := by
  unfold SplineTransformer.transform at h
  split at h
  · cases h
    next hcols => exact ⟨hcols, rfl⟩
  · cases h

theorem spline_transform_ok_of {fs : SplineTransformer} {X : Mat}
    (h : (X.headD []).length = fs.n_features_in_) :
    fs.transform X = .ok (basisExpansion fs X) := by
  unfold SplineTransformer.transform
  rw [if_pos h]

theorem transform_ok_inv {est : MonotonicSplineTransformer} {X Y : Mat}
    (h : est.transform X = .ok Y) :
    ∃ fs, est.spline_transformer_ = some fs ∧
      check_array false (fun _ => true) X = .ok X ∧
      (X.headD []).length = fs.n_features_in_ ∧
      Y = cumsum0 (basisExpansion fs X) := by
  unfold MonotonicSplineTransformer.transform at h
  cases hfs : est.spline_transformer_ with
  | none => rw [hfs] at h; cases h
  | some fs =>
    rw [hfs] at h
    simp only [] at h
    cases hchk : check_array false (fun _ => true) X with
    | error e => rw [hchk] at h; simp only [] at h; cases h
    | ok Xv =>
      have hXv : Xv = X := (check_array_ok_inv hchk).1
      rw [hXv] at hchk
      rw [hchk] at h
      simp only [] at h
      cases hsp : fs.transform X with
      | error e => rw [hsp] at h; simp only [] at h; cases h
      | ok B =>
        rw [hsp] at h
        simp only [] at h
        cases h
        obtain ⟨hcols, hB⟩ := spline_transform_ok_inv hsp
        exact ⟨fs, rfl, by rw [hXv], hcols, by rw [hB]⟩

theorem transform_ok_of {est : MonotonicSplineTransformer} {fs : SplineTransformer}
    {X : Mat} (hfs : est.spline_transformer_ = some fs)
    (hchk : check_array false (fun _ => true) X = .ok X)
    (hcols : (X.headD []).length = fs.n_features_in_) :
    est.transform X = .ok (cumsum0 (basisExpansion fs X)) := by
  simp only [MonotonicSplineTransformer.transform, hfs, hchk,
    spline_transform_ok_of hcols]

theorem fitState_n_features (n_knots degree : ℕ) (strategy : KnotStrategy) (X : Mat) :
    (SplineTransformer.fitState n_knots degree strategy X).n_features_in_ =
      (X.headD []).length := rfl

theorem fitState_nSplines (n_knots degree : ℕ) (strategy : KnotStrategy) (X : Mat) :
    (SplineTransformer.fitState n_knots degree strategy X).nSplines =
      n_knots + degree - 1 := rfl

theorem singleton_rows_check {α : Type} (f : α → ℚ) (L : List α) (hL : L ≠ []) :
    check_array false (fun _ => true) (L.map fun a => [f a]) =
      .ok (L.map fun a => [f a]) := by
  apply check_array_ok_of
  · intro hc
    exact hL (List.map_eq_nil_iff.mp hc)
  · cases L with
    | nil => exact absurd rfl hL
    | cons a L => simp
  · intro r hr
    simp only [List.mem_map] at hr
    obtain ⟨a, _, rfl⟩ := hr
    cases L with
    | nil => exact absurd rfl hL
    | cons b L => simp

theorem headD_len_singleton_rows {α : Type} (f : α → ℚ) (L : List α) (hL : L ≠ []) :
    ((L.map fun a => [f a]).headD []).length = 1 := by
  cases L with
  | nil => exact absurd rfl hL
  | cons a L => rfl

theorem X100_shape_aux :
    ∃ est Y, MonotonicSplineTransformer.fit {} X100 = .ok est ∧
      est.transform X100 = .ok Y ∧ Y.length = 100 ∧ ∀ r ∈ Y, r.length = 5 := by
  have hL : (List.range 100) ≠ [] := by simp
  have hchk : check_array false (fun _ => true) X100 = .ok X100 :=
    singleton_rows_check _ _ hL
  have hfit := fit_ok_of ({} : MonotonicSplineTransformer) hchk (by decide)
  have hnf : (SplineTransformer.fitState 3 3 KnotStrategy.uniform X100).n_features_in_ = 1 := by
    rw [fitState_n_features]
    exact headD_len_singleton_rows _ _ hL
  have hcols : (X100.headD []).length =
      (SplineTransformer.fitState 3 3 KnotStrategy.uniform X100).n_features_in_ := by
    rw [fitState_n_features]
  have htr := transform_ok_of
    (rfl : (({} : MonotonicSplineTransformer).fitted X100).spline_transformer_ =
      some (SplineTransformer.fitState 3 3 KnotStrategy.uniform X100)) hchk hcols
  refine ⟨({} : MonotonicSplineTransformer).fitted X100, _, hfit, htr, ?_, ?_⟩
  · rw [cumsum0_length]
    simp [basisExpansion, X100]
  · apply cumsum0_rowlen
    intro r hr
    simp only [basisExpansion, List.mem_map] at hr
    obtain ⟨a, _, rfl⟩ := hr
    rw [transformRow_length, hnf, fitState_nSplines]

/-- C1: for every MonotonicSplineTransformer fitted by a successful fit and
every numeric input matrix accepted by transform, every column of the output,
read in the given row order, is non-decreasing: for all output columns c and
row indices i < j, output[i, c] <= output[j, c]. -/
theorem transform_columns_monotone
    (est0 est : MonotonicSplineTransformer) (X0 X Y : Mat)
    (hfit : est0.fit X0 = .ok est) (htr : est.transform X = .ok Y)
    (i j c : ℕ) (hij : i < j) (hj : j < Y.length) :
    entryD Y i c ≤ entryD Y j c := by
  obtain ⟨hchk0, h2, hest⟩ := fit_ok_inv hfit
  obtain ⟨fs, hfs, hchk, hcols, hY⟩ := transform_ok_inv htr
  have hfseq : fs = SplineTransformer.fitState est0.n_knots est0.degree est0.knots X0 := by
    rw [hest] at hfs
    have : some (SplineTransformer.fitState est0.n_knots est0.degree est0.knots X0) =
        some fs := hfs
    injection this with h
    exact h.symm
  have hks : ∀ kl ∈ fs.featKnots, kl.Sorted (· ≤ ·) := by
    rw [hfseq]
    exact fitState_featKnots_sorted _ _ _ _ h2
  have hnn : ∀ r ∈ basisExpansion fs X, ∀ v ∈ r, 0 ≤ v := by
    intro r hr
    simp only [basisExpansion, List.mem_map] at hr
    obtain ⟨row, _, rfl⟩ := hr
    exact transformRow_nonneg hks row
  have hlen : ∀ r ∈ basisExpansion fs X, r.length = fs.n_features_in_ * fs.nSplines := by
    intro r hr
    simp only [basisExpansion, List.mem_map] at hr
    obtain ⟨row, _, rfl⟩ := hr
    exact transformRow_length fs row
  subst hY
  simp only [entryD]
  exact cumsum0_entries_mono _ _ hlen hnn i j c hij hj

/-- Witness for C1 at a concrete fitted instance and input. -/
theorem transform_columns_monotone_witness :
    entryD [[1, 0, 0], [1, 0, 1]] 0 0 ≤ entryD [[1, 0, 0], [1, 0, 1]] 1 0 :=
  transform_columns_monotone estW estWf [[0], [2]] [[0], [2]] [[1, 0, 0], [1, 0, 1]]
    (by with_unfolding_all decide) (by with_unfolding_all decide) 0 1 0
    (by decide) (by decide)

/-- C2 counterexample: an input containing NaN passes the validation step of
fit without any error, because the source calls check_array with
force_all_finite=False; so NaN is not rejected by the validation step. -/
theorem fit_validation_accepts_nan :
    fit_validation [[Val.nan]] = .ok [[Val.nan]] ∧ Val.isFinite Val.nan = false :=
  ⟨rfl, rfl⟩

/-- C2 amended: the validation step of fit accepts every non-empty rectangular
numeric array regardless of NaN or infinity entries; NaN is not rejected by
the validation step (any NaN rejection would have to come from the downstream
spline collaborator, for which the spec leaves non-finite behavior open). -/
theorem fit_validation_no_nan_check (X : List (List Val))
    (h1 : X ≠ []) (h2 : (X.headD []).length ≠ 0)
    (h3 : ∀ r ∈ X, r.length = (X.headD []).length) :
    fit_validation X = .ok X :=
  check_array_ok_of Val.isFinite h1 h2 h3

/-- Witness for the amended C2 at an input holding a NaN and an infinity. -/
theorem fit_validation_no_nan_check_witness :
    fit_validation [[Val.nan, Val.posInf]] = .ok [[Val.nan, Val.posInf]] :=
  fit_validation_no_nan_check [[Val.nan, Val.posInf]]
    (by decide) (by decide) (by decide)

/-- C3 counterexample: with default parameters, fitting on the single-column
input of 100 evenly spaced values from 0 to 1 and transforming it does not
give a 4-column output (each row has 5 entries, not 4). -/
theorem default_fit_transform_not_four_columns :
    ∃ est Y, MonotonicSplineTransformer.fit {} X100 = .ok est ∧
      est.transform X100 = .ok Y ∧ Y.length = 100 ∧ ¬ (∀ r ∈ Y, r.length = 4) := by
  obtain ⟨est, Y, hfit, htr, hlen, hrow⟩ := X100_shape_aux
  refine ⟨est, Y, hfit, htr, hlen, ?_⟩
  intro hall
  have hYne : Y ≠ [] := by
    intro hc; rw [hc] at hlen; simp at hlen
  have hmem : Y.headD [] ∈ Y := by
    cases Y with
    | nil => exact absurd rfl hYne
    | cons r rs => simp
  have h5 := hrow _ hmem
  have h4 := hall _ hmem
  omega

/-- C3 amended: with default parameters (n_knots=3, degree=3, knots=uniform),
fitting on a single-column input of 100 evenly spaced values from 0 to 1 and
then transforming that same input produces an output matrix with exactly 100
rows and exactly 5 columns (n_knots + degree - 1 = 5 basis functions, the
standard count with the bias splines included). -/
theorem default_fit_transform_shape :
    ∃ est Y, MonotonicSplineTransformer.fit {} X100 = .ok est ∧
      est.transform X100 = .ok Y ∧ Y.length = 100 ∧ ∀ r ∈ Y, r.length = 5 :=
  X100_shape_aux

/-- C4: on every estimator whose fitted attribute is absent (as on every
freshly constructed instance), transform raises the not-fitted error and
returns no result. -/
theorem transform_before_fit_errors (est : MonotonicSplineTransformer) (X : Mat)
    (h : est.spline_transformer_ = none) :
    est.transform X = .error Err.notFittedError := by
  simp only [MonotonicSplineTransformer.transform, h]

/-- Witness for C4 on a freshly constructed estimator. -/
theorem transform_before_fit_errors_witness :
    estW.transform [[0]] = .error Err.notFittedError :=
  transform_before_fit_errors estW [[0]] rfl

/-- C5: after a successful fit, transforming any valid numeric matrix whose
column count differs from the fit-time column count raises the shape-mismatch
error instead of returning a result. -/
theorem transform_shape_mismatch_errors
    (est0 est : MonotonicSplineTransformer) (X0 X : Mat)
    (hfit : est0.fit X0 = .ok est)
    (hchk : check_array false (fun _ => true) X = .ok X)
    (hcols : (X.headD []).length ≠ (X0.headD []).length) :
    est.transform X = .error Err.shapeMismatch := by
  obtain ⟨hchk0, h2, hest⟩ := fit_ok_inv hfit
  subst hest
  have hfs : (est0.fitted X0).spline_transformer_ =
      some (SplineTransformer.fitState est0.n_knots est0.degree est0.knots X0) := rfl
  have hc : ¬ ((X.headD []).length =
      (SplineTransformer.fitState est0.n_knots est0.degree est0.knots X0).n_features_in_) := by
    rw [fitState_n_features]
    exact hcols
  have hsp : (SplineTransformer.fitState est0.n_knots est0.degree est0.knots X0).transform X
      = .error Err.shapeMismatch := by
    unfold SplineTransformer.transform
    rw [if_neg hc]
  simp only [MonotonicSplineTransformer.transform, hfs, hchk, hsp]

/-- Witness for C5: fit on one column, transform on two columns. -/
theorem transform_shape_mismatch_errors_witness :
    estWf.transform [[0, 1]] = .error Err.shapeMismatch :=
  transform_shape_mismatch_errors estW estWf [[0], [2]] [[0, 1]]
    (by with_unfolding_all decide) (by with_unfolding_all decide) (by decide)

/-- C6: a successful transform call leaves the program state unchanged, and
calling transform again on the same fitted instance with the same array
yields the identical output matrix. -/
theorem transform_repeat_deterministic (st st2 : ProgState) (Y : Mat)
    (h : transformCall st = .ok (st2, Y)) :
    st2 = st ∧ transformCall st2 = .ok (st2, Y) := by
  unfold transformCall at h ⊢
  cases htr : st.est.transform st.arr with
  | error e => rw [htr] at h; cases h
  | ok Y0 =>
    rw [htr] at h
    simp only [Except.ok.injEq, Prod.mk.injEq] at h
    obtain ⟨rfl, rfl⟩ := h
    exact ⟨rfl, by rw [htr]⟩

/-- Witness for C6 at a concrete fitted state and array. -/
theorem transform_repeat_deterministic_witness :
    stW = stW ∧ transformCall stW = .ok (stW, [[1, 0, 0], [1, 0, 1]]) :=
  transform_repeat_deterministic stW stW [[1, 0, 0], [1, 0, 1]]
    (by with_unfolding_all decide)

/-- C7: a successful fit call leaves the caller array unchanged, returns the
estimator itself, preserves the three constructor parameters, and its only
state change is storing the fitted collaborator in spline_transformer_. -/
theorem fit_returns_self_no_side_effects (st st2 : ProgState)
    (ret : MonotonicSplineTransformer) (h : fitCall st = .ok (st2, ret)) :
    st2.arr = st.arr ∧ ret = st2.est ∧
      st2.est.n_knots = st.est.n_knots ∧ st2.est.degree = st.est.degree ∧
      st2.est.knots = st.est.knots ∧
      st2.est.spline_transformer_ =
        some (SplineTransformer.fitState st.est.n_knots st.est.degree
          st.est.knots st.arr) := by
  unfold fitCall at h
  cases hf : st.est.fit st.arr with
  | error e => rw [hf] at h; cases h
  | ok est2 =>
    rw [hf] at h
    simp only [Except.ok.injEq, Prod.mk.injEq] at h
    obtain ⟨hchk, h2, hest2⟩ := fit_ok_inv hf
    subst hest2
    obtain ⟨h1, h2r⟩ := h
    subst h1
    subst h2r
    exact ⟨rfl, rfl, rfl, rfl, rfl, rfl⟩

/-- Witness for C7 at a concrete unfitted state and array. -/
theorem fit_returns_self_no_side_effects_witness :
    stW.arr = stW0.arr ∧ estWf = stW.est ∧
      stW.est.n_knots = stW0.est.n_knots ∧ stW.est.degree = stW0.est.degree ∧
      stW.est.knots = stW0.est.knots ∧
      stW.est.spline_transformer_ =
        some (SplineTransformer.fitState stW0.est.n_knots stW0.est.degree
          stW0.est.knots stW0.arr) :=
  fit_returns_self_no_side_effects stW0 stW estWf (by with_unfolding_all decide)

/-- C8: for every fitted instance and valid non-empty input, the last row of
the transform output equals, column by column, the sum of that column of the
raw spline-basis expansion over all rows. -/
theorem transform_last_row_eq_column_sums
    (est : MonotonicSplineTransformer) (fs : SplineTransformer) (X Y : Mat)
    (hfs : est.spline_transformer_ = some fs)
    (htr : est.transform X = .ok Y) (hne : X ≠ []) (c : ℕ) :
    (Y.getLastD []).getD c 0 = ((basisExpansion fs X).map (fun r => r.getD c 0)).sum := by
  obtain ⟨fs2, hfs2, hchk, hcols, hY⟩ := transform_ok_inv htr
  rw [hfs] at hfs2
  obtain rfl : fs = fs2 := Option.some.inj hfs2
  subst hY
  have hlenB : ∀ r2 ∈ basisExpansion fs X,
      r2.length = fs.n_features_in_ * fs.nSplines := by
    intro r2 hr2
    simp only [basisExpansion, List.mem_map] at hr2
    obtain ⟨a, _, rfl⟩ := hr2
    exact transformRow_length fs a
  cases hB : basisExpansion fs X with
  | nil =>
    exfalso
    rw [basisExpansion] at hB
    exact hne (List.map_eq_nil_iff.mp hB)
  | cons r rs =>
    have hc0 : cumsum0 (r :: rs) = r :: cumsumFrom r rs := rfl
    rw [hc0, List.getLastD_cons, cumsumFrom_getLastD]
    have hlens : ∀ r2 ∈ rs, r2.length = r.length := by
      intro r2 hr2
      have ha : r2 ∈ basisExpansion fs X := by rw [hB]; simp [hr2]
      have hb : r ∈ basisExpansion fs X := by rw [hB]; simp
      rw [hlenB r2 ha, hlenB r hb]
    rw [foldl_zipadd_getD rs r c hlens]
    simp

/-- Witness for C8 at a concrete fitted instance and two-row input. -/
theorem transform_last_row_eq_column_sums_witness :
    (([[1, 0, 0], [1, 0, 1]] : Mat).getLastD []).getD 0 0 =
      ((basisExpansion fsW [[0], [2]]).map (fun r => r.getD 0 0)).sum :=
  transform_last_row_eq_column_sums estWf fsW [[0], [2]] [[1, 0, 0], [1, 0, 1]] rfl
    (by with_unfolding_all decide) (List.cons_ne_nil _ _) 0

/-- C9: each output row of transform depends only on the input rows at or
before it: transforming the row-wise concatenation of X1 and X2 yields a
matrix whose first rows, as many as X1 has, are exactly the transform of X1. -/
theorem transform_append_keeps_front_rows
    (est : MonotonicSplineTransformer) (X1 X2 Y1 Y12 : Mat)
    (h1 : est.transform X1 = .ok Y1)
    (h12 : est.transform (X1 ++ X2) = .ok Y12) :
    Y12.take X1.length = Y1 := by
  obtain ⟨fs, hfs, hchk1, hcols1, hY1⟩ := transform_ok_inv h1
  obtain ⟨fs2, hfs2, hchk12, hcols12, hY12⟩ := transform_ok_inv h12
  rw [hfs] at hfs2
  obtain rfl : fs = fs2 := Option.some.inj hfs2
  subst hY1 hY12
  have hmap : basisExpansion fs (X1 ++ X2) =
      basisExpansion fs X1 ++ basisExpansion fs X2 := by
    simp [basisExpansion]
  rw [hmap]
  have hlen : X1.length = (basisExpansion fs X1).length := by
    simp [basisExpansion]
  rw [hlen, cumsum0_take_append]

/-- Witness for C9: appending a second row does not change the first output
row. -/
theorem transform_append_keeps_front_rows_witness :
    ([[1, 0, 0], [1, 0, 1]] : Mat).take ([[(0 : ℚ)]] : Mat).length = [[1, 0, 0]] :=
  transform_append_keeps_front_rows estWf [[0]] [[2]] [[1, 0, 0]]
    [[1, 0, 0], [1, 0, 1]] (by with_unfolding_all decide)
    (by with_unfolding_all decide)

/-- C10: a successful transform call mutates neither the caller array nor the
estimator (in particular the fitted attribute is unchanged), and the returned
matrix is the cumulative sum of the raw basis expansion of the array. -/
theorem transform_no_mutation (st st2 : ProgState) (Y : Mat) (fs : SplineTransformer)
    (hfs : st.est.spline_transformer_ = some fs)
    (h : transformCall st = .ok (st2, Y)) :
    st2.arr = st.arr ∧ st2.est = st.est ∧ Y = cumsum0 (basisExpansion fs st.arr) := by
  unfold transformCall at h
  cases htr : st.est.transform st.arr with
  | error e => rw [htr] at h; cases h
  | ok Y0 =>
    rw [htr] at h
    simp only [Except.ok.injEq, Prod.mk.injEq] at h
    obtain ⟨rfl, rfl⟩ := h
    obtain ⟨fs2, hfs2, hchk, hcols, hY0⟩ := transform_ok_inv htr
    rw [hfs] at hfs2
    obtain rfl : fs = fs2 := Option.some.inj hfs2
    exact ⟨rfl, rfl, hY0⟩

/-- Witness for C10 at a concrete fitted state and array. -/
theorem transform_no_mutation_witness :
    stW.arr = stW.arr ∧ stW.est = stW.est ∧
      ([[1, 0, 0], [1, 0, 1]] : Mat) = cumsum0 (basisExpansion fsW stW.arr) :=
  transform_no_mutation stW stW [[1, 0, 0], [1, 0, 1]] fsW rfl
    (by with_unfolding_all decide)
